import Mathlib

/-!
Verification of the concurrent range collection (`crange`) and the
user-space work-queue glue (`uwq`) of this repository.

The C++ sources are embedded shallowly:

* `markptr<T>` (src/include/crange.hh, lines 14-81) stores a pointer and a
  1-bit mark in one machine word `_p : std::atomic<uptr>`.  We model the
  word as a `Nat` (pointer values are even, the low bit is the mark; no
  operation below can overflow a 64-bit word when its inputs fit, so no
  `% 2^64` is needed).
* the level-0 structure of the skip list is modelled as a heap
  `Nat -> range`, where an address is a `Nat`, `0` is the null pointer,
  and each node carries its level-0 next word `next0` (a `markptr` word).
* control flow of loops is modelled by structural recursion with explicit
  fuel; lock releases and epoch/pointer reads are recorded as event lists.
-/

namespace markptr

/-- Embeds `markptr_ptr<T>::load` (crange.hh line 58-60):
`return (T*) (_p.load() & ~1);` — the word with its low bit cleared.
Clearing the low bit of `w` is `2 * (w / 2)` on `Nat`. -/
def load_ptr (w : Nat) : Nat := 2 * (w / 2)

/-- Embeds `markptr_mark<T>::load` (crange.hh line 76-78):
`return _p.load() & 1;` converted to `bool`. -/
def load_mark (w : Nat) : Bool := w &&& 1 == 1

/-- Embeds `markptr_ptr<T>::operator=` (crange.hh line 50-56): the CAS loop
installs `p1 = (p0 & 1) | (uptr) p`, retrying until the CAS succeeds; in a
single-threaded model the loop runs once and the stored word becomes
`(w &&& 1) ||| p`. -/
def store_ptr (w p : Nat) : Nat := (w &&& 1) ||| p

/-- Embeds `markptr_mark<T>::operator=` (crange.hh line 68-74): the CAS loop
installs `p1 = (p0 & ~1) | !!m`; `!!m` normalizes the mark to 0 or 1. -/
def store_mark (w : Nat) (m : Bool) : Nat :=
  (2 * (w / 2)) ||| (if m then 1 else 0)

/-- Embeds `markptr<T>::cmpxch` (crange.hh line 41-44):
`uptr ee = expected._p.load(); return _p.compare_exchange_weak(ee, desired._p.load());`
A weak compare-exchange may fail spuriously even when the words are equal;
the `spurious` flag models that.  The result is the returned success bit
paired with the word stored in `_p` afterwards. -/
def cmpxch (w expected desired : Nat) (spurious : Bool) : Bool × Nat :=
  if w = expected ∧ spurious = false then (true, desired) else (false, w)

theorem even_lor_one (p : Nat) (hp : p % 2 = 0) : p ||| 1 = p + 1 := by
  obtain ⟨k, rfl⟩ : ∃ k, p = 2 * k := ⟨p / 2, by omega⟩
  have h := Nat.lor_bit false k true 0
  simpa [Nat.bit, Nat.two_mul] using h

theorem even_lor (p b : Nat) (hp : p % 2 = 0) (hb : b ≤ 1) :
    p ||| b = p + b := by
  interval_cases b
  · simp
  · exact even_lor_one p hp

theorem store_ptr_eq (w p : Nat) (hp : p % 2 = 0) :
    store_ptr w p = p + w % 2 := by
  have h1 : w &&& 1 = w % 2 := Nat.and_one_is_mod w
  have h2 : w % 2 ≤ 1 := by omega
  rw [store_ptr, h1, Nat.lor_comm, even_lor p (w % 2) hp h2]

theorem store_mark_eq (w : Nat) (m : Bool) :
    store_mark w m = 2 * (w / 2) + (if m then 1 else 0) := by
  have hp : (2 * (w / 2)) % 2 = 0 := by omega
  have hb : (if m then 1 else 0) ≤ 1 := by cases m <;> simp
  rw [store_mark, even_lor _ _ hp hb]

theorem load_mark_eq (w : Nat) : load_mark w = decide (w % 2 = 1) := by
  rw [load_mark, Nat.and_one_is_mod]
  cases h : decide (w % 2 = 1) <;> simp_all

end markptr

/-- C3: `markptr::cmpxch(expected, desired)` is a compare-and-swap on the
whole word: it can succeed only when the stored word equals `expected` in
both its pointer component and its mark bit simultaneously; on success the
whole word becomes `desired` (both components installed by the single CAS),
and on failure the stored word is left unchanged. -/
theorem c3_cmpxch_whole_word (w e d : Nat) (sp : Bool) :
    ((markptr.cmpxch w e d sp).1 = true →
        w = e ∧
        markptr.load_ptr w = markptr.load_ptr e ∧
        markptr.load_mark w = markptr.load_mark e ∧
        (markptr.cmpxch w e d sp).2 = d ∧
        markptr.load_ptr (markptr.cmpxch w e d sp).2 = markptr.load_ptr d ∧
        markptr.load_mark (markptr.cmpxch w e d sp).2 = markptr.load_mark d) ∧
    ((markptr.cmpxch w e d sp).1 = false → (markptr.cmpxch w e d sp).2 = w) := by
  unfold markptr.cmpxch
  by_cases h : w = e ∧ sp = false
  · obtain ⟨rfl, rfl⟩ := h
    simp
  · simp [h]

theorem c3_cmpxch_whole_word_witness :
    ((markptr.cmpxch 6 6 9 false).2 = 9) ∧
    ((markptr.cmpxch 6 7 9 false).2 = 6) :=
  ⟨((c3_cmpxch_whole_word 6 6 9 false).1 (by decide)).2.2.2.1,
   (c3_cmpxch_whole_word 6 7 9 false).2 (by decide)⟩

/-- C4: for every markptr word and every (aligned) pointer `p`, storing `p`
through the pointer view (`markptr_ptr::operator=`) sets the pointer
component to `p` while leaving the mark bit unchanged, and a subsequent
`load_ptr()` returns `p` with the mark stripped. -/
theorem c4_store_ptr_frame (w p : Nat) (hp : p % 2 = 0) :
    markptr.load_ptr (markptr.store_ptr w p) = p ∧
    markptr.load_mark (markptr.store_ptr w p) = markptr.load_mark w := by
  rw [markptr.store_ptr_eq w p hp]
  constructor
  · show 2 * ((p + w % 2) / 2) = p
    omega
  · rw [markptr.load_mark_eq, markptr.load_mark_eq, decide_eq_decide]
    omega

theorem c4_store_ptr_frame_witness :
    (4 % 2 = 0) ∧
    (markptr.load_ptr (markptr.store_ptr 5 4) = 4 ∧
     markptr.load_mark (markptr.store_ptr 5 4) = markptr.load_mark 5) :=
  ⟨by decide, c4_store_ptr_frame 5 4 (by decide)⟩

/-- C5: for every markptr word and every boolean `m`, storing `m` through
the mark view (`markptr_mark::operator=`) sets the mark bit to `m` (the
source normalizes with `!!m`) while leaving the pointer component
unchanged, and a subsequent `load_mark()` returns `m`. -/
theorem c5_store_mark_frame (w : Nat) (m : Bool) :
    markptr.load_mark (markptr.store_mark w m) = m ∧
    markptr.load_ptr (markptr.store_mark w m) = markptr.load_ptr w := by
  rw [markptr.store_mark_eq]
  constructor
  · cases m
    · show markptr.load_mark (2 * (w / 2) + 0) = false
      rw [markptr.load_mark_eq, decide_eq_false_iff_not]
      omega
    · show markptr.load_mark (2 * (w / 2) + 1) = true
      rw [markptr.load_mark_eq, decide_eq_true_eq]
      omega
  · cases m
    · show 2 * ((2 * (w / 2) + 0) / 2) = 2 * (w / 2)
      omega
    · show 2 * ((2 * (w / 2) + 1) / 2) = 2 * (w / 2)
      omega

/-- Embeds the level-0 view of `struct range` (crange.hh lines 83-107).
`key` and `size` are the immutable interval; `next0` is the markptr word
`next[0]`, whose pointer component is the address of the level-0 successor
and whose low bit is the logical-deletion mark.  The per-node spin lock is
modelled by the release events emitted by `crange_locked`'s destructor;
higher levels, `curlevel` and `nlevel` play no role in the claims below. -/
structure range where
  key : Nat
  size : Nat
  next0 : Nat
deriving DecidableEq

/-- A heap maps addresses (`Nat`, with `0` the null pointer) to nodes. -/
def Heap : Type := Nat → range

/-- Embeds `range::deleted` (crange.hh line 106): `return next[0].mark();` -/
def range_deleted (h : Heap) (a : Nat) : Bool := markptr.load_mark (h a).next0

/-- Embeds `class range_iterator` (crange.hh lines 120-131): it holds a
single node pointer `_e`. -/
structure range_iterator where
  _e : Nat
deriving DecidableEq

/-- Embeds `range_iterator::operator++` (crange.hh line 126):
`_e = _e->next[0].ptr(); return *this;` -/
def range_iterator_inc (h : Heap) (it : range_iterator) : range_iterator :=
  ⟨markptr.load_ptr (h it._e).next0⟩

/-- Embeds `struct crange` (crange.hh lines 180-211) down to what the
level-0 claims use: the number of levels and the address of the sentinel
`range_head`. -/
structure crange where
  nlevel : Nat
  crange_head : Nat
deriving DecidableEq

/-- Embeds `crange::begin` (crange.hh line 208):
`return range_iterator(crange_head->next[0].ptr());` -/
def crange_begin (h : Heap) (c : crange) : range_iterator :=
  ⟨markptr.load_ptr (h c.crange_head).next0⟩

/-- Embeds `crange::end` (crange.hh line 209): `return range_iterator(0);` -/
def crange_end : range_iterator := ⟨(0 : Nat)⟩

/-- One step of `for (it = b; it != e; ++it) visit(*it);` over
`range_iterator`s: collect the visited node addresses, following
`next[0].ptr()` exactly as `operator++` does, and stopping when the
iterator compares equal to the end iterator (`operator==` compares `_e`).
`fuel` bounds the number of steps of the unbounded C++ loop. -/
def traverse0 (h : Heap) : Nat → Nat → Nat → List Nat
  | 0, _, _ => []
  | fuel + 1, cur, stop =>
    if cur = stop then []
    else cur :: traverse0 h fuel (markptr.load_ptr (h cur).next0) stop

/-- Chain h a l stop holds when l is the list of nodes encountered by
following level-0 `next` pointers (mark stripped) from `a` until `stop` is
reached: `a` heads the chain unless `a = stop`, and the last node's
`next[0].ptr()` is `stop`.  Nothing is assumed about the mark bits of the
chain's nodes. -/
inductive Chain (h : Heap) : Nat → List Nat → Nat → Prop where
  | nil (stop : Nat) : Chain h stop [] stop
  | cons {a b stop : Nat} {l : List Nat} (hne : a ≠ stop)
      (hnext : markptr.load_ptr (h a).next0 = b) (hch : Chain h b l stop) :
      Chain h a (a :: l) stop

theorem traverse_chain (h : Heap) {a : Nat} {l : List Nat} {stop : Nat}
    (hch : Chain h a l stop) :
    ∀ f, l.length ≤ f → traverse0 h f a stop = l := by
  induction hch with
  | nil stop =>
    intro f _
    cases f with
    | zero => rfl
    | succ f => simp [traverse0]
  | cons hne hnext hch ih =>
    intro f hf
    cases f with
    | zero => simp at hf
    | succ f =>
      simp only [traverse0, if_neg hne, hnext]
      rw [ih f (by simpa using hf)]

theorem chain_det (h : Heap) {a : Nat} {l1 : List Nat} {stop : Nat}
    (h1 : Chain h a l1 stop) :
    ∀ {l2 : List Nat}, Chain h a l2 stop → l1 = l2 := by
  induction h1 with
  | nil stop =>
    intro l2 h2
    cases h2 with
    | nil => rfl
    | cons hne hnext hch => exact absurd rfl hne
  | cons hne hnext hch ih =>
    intro l2 h2
    cases h2 with
    | nil => exact absurd rfl hne
    | cons hne2 hnext2 hch2 =>
      rw [hnext] at hnext2
      subst hnext2
      rw [ih hch2]

theorem chain_mem_suffix (h : Heap) {b : Nat} {l : List Nat} {stop : Nat}
    (hch : Chain h b l stop) :
    ∀ a ∈ l, ∃ t, Chain h a (a :: t) stop ∧ (a :: t) <:+ l := by
  induction hch with
  | nil stop => intro a ha; simp at ha
  | cons hne hnext hch ih =>
    intro x hx
    rcases List.mem_cons.mp hx with hx | hx
    · subst hx
      exact ⟨_, Chain.cons hne hnext hch, List.suffix_refl _⟩
    · obtain ⟨t, hcht, hsuf⟩ := ih x hx
      exact ⟨t, hcht, hsuf.trans (List.suffix_cons _ _)⟩

theorem chain_nodup (h : Heap) {b : Nat} {l : List Nat} {stop : Nat}
    (hch : Chain h b l stop) : l.Nodup := by
  induction hch with
  | nil stop => exact List.nodup_nil
  | cons hne hnext hch ih =>
    refine List.nodup_cons.mpr ⟨?_, ih⟩
    intro hmem
    obtain ⟨t, hcht, hsuf⟩ := chain_mem_suffix h hch _ hmem
    have heq := chain_det h (Chain.cons hne hnext hch) hcht
    injection heq with h1 h2
    subst h2
    have hlen := hsuf.length_le
    simp only [List.length_cons] at hlen
    omega

/-- Lock events emitted by `crange_locked`'s destructor: reading a node's
`next[0]` pointer, and releasing a node's spin lock. -/
inductive LockEvent where
  | readNext (a : Nat)
  | release (a : Nat)
deriving DecidableEq

/-- Embeds `struct crange_locked` (crange.hh lines 133-178): the fields the
level-0 claims use.  `cr_` and the `scoped_gc_epoch gc` member are omitted
(the epoch guard plays no role in C2/C7/C9). -/
structure crange_locked where
  base_ : Nat
  size_ : Nat
  prev_ : Nat
  succ_ : Nat
  moved_ : Bool
deriving DecidableEq

/-- Embeds the loop of `~crange_locked` (crange.hh lines 166-170):
`for (range *e = prev_; e && e != succ_; e = n) { n = e->next[0].ptr(); release(&e->lock); }`
Each iteration first reads the node's `next[0]` pointer, then releases the
node's lock; the loop stops on null or on `succ_`.  `fuel` bounds the
number of iterations of the unbounded C++ loop. -/
def release_loop (h : Heap) : Nat → Nat → Nat → List LockEvent
  | 0, _, _ => []
  | fuel + 1, e, succ =>
    if e ≠ 0 ∧ e ≠ succ then
      LockEvent.readNext e :: LockEvent.release e ::
        release_loop h fuel (markptr.load_ptr (h e).next0) succ
    else []

/-- Embeds `~crange_locked` (crange.hh lines 163-172): a moved-from handle
releases nothing; otherwise the release loop runs from `prev_` to
`succ_`. -/
def crange_locked_destruct (h : Heap) (fuel : Nat) (w : crange_locked) :
    List LockEvent :=
  if w.moved_ then [] else release_loop h fuel w.prev_ w.succ_

/-- Embeds the move constructor `crange_locked(crange_locked &&x)`
(crange.hh lines 151-161): the new handle copies every field and starts
with `moved_ = false`; the constructor body sets `x.moved_ = true`.  The
result pairs the new handle with the source handle after the move. -/
def crange_locked_move (x : crange_locked) : crange_locked × crange_locked :=
  (⟨x.base_, x.size_, x.prev_, x.succ_, false⟩,
   ⟨x.base_, x.size_, x.prev_, x.succ_, true⟩)

/-- Embeds `crange_locked::begin` (crange.hh line 174):
`return range_iterator(prev_->next[0].ptr());` -/
def crange_locked_begin (h : Heap) (w : crange_locked) : range_iterator :=
  ⟨markptr.load_ptr (h w.prev_).next0⟩

/-- Embeds `crange_locked::end` (crange.hh line 175):
`return range_iterator(succ_);` -/
def crange_locked_end (w : crange_locked) : range_iterator := ⟨w.succ_⟩

/-- The event trace the destructor's loop should produce on a node list:
for each node in order, a read of its `next[0]` followed by the release of
its lock. -/
def lock_trace : List Nat → List LockEvent
  | [] => []
  | a :: l => LockEvent.readNext a :: LockEvent.release a :: lock_trace l

/-- The addresses whose locks a trace releases, in order. -/
def releases_of (evs : List LockEvent) : List Nat :=
  evs.filterMap fun e =>
    match e with
    | LockEvent.release a => some a
    | LockEvent.readNext _ => none

theorem releases_of_lock_trace (l : List Nat) :
    releases_of (lock_trace l) = l := by
  induction l with
  | nil => rfl
  | cons a l ih => simp [lock_trace, releases_of] at ih ⊢; exact ih

theorem release_loop_chain (h : Heap) {e : Nat} {l : List Nat} {succ : Nat}
    (hch : Chain h e l succ) (h0 : ∀ a ∈ l, a ≠ 0) :
    ∀ f, l.length ≤ f → release_loop h f e succ = lock_trace l := by
  induction hch with
  | nil stop =>
    intro f _
    cases f with
    | zero => rfl
    | succ f => simp [release_loop, lock_trace]
  | cons hne hnext hch ih =>
    intro f hf
    cases f with
    | zero => simp at hf
    | succ f =>
      have ha0 : _ ≠ 0 := h0 _ (List.mem_cons_self _ _)
      simp only [release_loop, if_pos (And.intro ha0 hne), hnext, lock_trace]
      rw [ih (fun a ha => h0 a (List.mem_cons_of_mem _ ha)) f (by simpa using hf)]

theorem store_mark_keeps_ptr (w : Nat) (m : Bool) :
    markptr.load_ptr (markptr.store_mark w m) = markptr.load_ptr w := by
  rw [markptr.store_mark_eq]
  cases m
  · show 2 * ((2 * (w / 2) + 0) / 2) = 2 * (w / 2)
    omega
  · show 2 * ((2 * (w / 2) + 1) / 2) = 2 * (w / 2)
    omega

/-- Rewrites every node's level-0 mark bit (via `markptr_mark::operator=`)
without touching keys, sizes, or the pointer components of the `next[0]`
words: used to state that iteration is insensitive to logical-deletion
marks. -/
def set_delete_marks (h : Heap) (m : Nat → Bool) : Heap :=
  fun a => ⟨(h a).key, (h a).size, markptr.store_mark (h a).next0 (m a)⟩

theorem chain_set_marks (h : Heap) {a : Nat} {l : List Nat} {stop : Nat}
    (m : Nat → Bool) (hch : Chain h a l stop) :
    Chain (set_delete_marks h m) a l stop := by
  induction hch with
  | nil stop => exact Chain.nil stop
  | cons hne hnext hch ih =>
    refine Chain.cons hne ?_ ih
    show markptr.load_ptr (markptr.store_mark _ _) = _
    rw [store_mark_keeps_ptr]
    exact hnext

/-- C6: iteration follows level-0 next pointers with the mark stripped and
performs no filtering: incrementing a `range_iterator` replaces the current
node by that node's `next[0].ptr()`, and traversal from `C.begin()` (the
head sentinel's level-0 successor) to `C.end()` (null) visits every node
linked at level 0 — in particular the same nodes are visited no matter how
the level-0 marks (logical-deletion flags) are set. -/
theorem c6_iteration_unfiltered (h : Heap) (c : crange) (l : List Nat)
    (hch : Chain h (crange_begin h c)._e l 0) :
    (∀ it : range_iterator,
        (range_iterator_inc h it)._e = markptr.load_ptr (h it._e).next0) ∧
    traverse0 h l.length (crange_begin h c)._e crange_end._e = l ∧
    ∀ m : Nat → Bool,
      traverse0 (set_delete_marks h m) l.length (crange_begin h c)._e
        crange_end._e = l :=
  ⟨fun _ => rfl,
   traverse_chain h hch l.length le_rfl,
   fun m => traverse_chain _ (chain_set_marks h m hch) l.length le_rfl⟩

/-- A four-node demonstration heap: a sentinel at address 2 and three nodes
at 4, 6, 8; node 4 carries the level-0 deletion mark (its next word is
7 = pointer 6 with mark bit 1); node 8 is last (null next). -/
def demo_heap : Heap := fun a =>
  if a = 2 then ⟨0, 0, 4⟩
  else if a = 4 then ⟨10, 5, 7⟩
  else if a = 6 then ⟨20, 5, 8⟩
  else if a = 8 then ⟨30, 5, 0⟩
  else ⟨0, 0, 0⟩

theorem c6_iteration_unfiltered_witness :
    traverse0 demo_heap 3 (crange_begin demo_heap ⟨4, 2⟩)._e crange_end._e =
      [4, 6, 8] :=
  (c6_iteration_unfiltered demo_heap ⟨4, 2⟩ [4, 6, 8]
    (Chain.cons (by decide) (by decide)
      (Chain.cons (by decide) (by decide)
        (Chain.cons (by decide) (by decide) (Chain.nil 0))))).2.1

/-- C7: for every locked window satisfying the lock-discipline invariant —
`prev_.next[0].ptr()` heads the window chain (and is `succ_` when the
window is empty) and the last window node's `next[0].ptr()` is `succ_` —
`begin()` starts at `prev_.next[0].ptr()`, `end()` is `succ_`, and
iterating from `begin()` to `end()` visits exactly the window nodes and
nothing else. -/
theorem c7_window_iteration (h : Heap) (w : crange_locked) (window : List Nat)
    (hch : Chain h (markptr.load_ptr (h w.prev_).next0) window w.succ_) :
    (crange_locked_begin h w)._e = markptr.load_ptr (h w.prev_).next0 ∧
    (crange_locked_end w)._e = w.succ_ ∧
    traverse0 h window.length (crange_locked_begin h w)._e
      (crange_locked_end w)._e = window :=
  ⟨rfl, rfl, traverse_chain h hch window.length le_rfl⟩

/-- A locked window over `demo_heap`: `prev_ = 2` (the sentinel),
window nodes 4 and 6, `succ_ = 8`. -/
def demo_window : crange_locked := ⟨10, 20, 2, 8, false⟩

theorem c7_window_iteration_witness :
    traverse0 demo_heap 2 (crange_locked_begin demo_heap demo_window)._e
      (crange_locked_end demo_window)._e = [4, 6] :=
  (c7_window_iteration demo_heap demo_window [4, 6]
    (Chain.cons (by decide) (by decide)
      (Chain.cons (by decide) (by decide) (Chain.nil 8)))).2.2

/-- C2: destroying a `crange_locked` handle that has not been moved from
releases the lock of `prev_` and of every node that follows it on the
level-0 chain up to `succ_`, in predecessor-first order, reading each
node's `next[0]` pointer before releasing that node's lock; the loop stops
on reaching `succ_` or null. -/
theorem c2_destructor_release_order (h : Heap) (w : crange_locked)
    (l : List Nat) (f : Nat)
    (hm : w.moved_ = false)
    (hch : Chain h w.prev_ l w.succ_)
    (h0 : ∀ a ∈ l, a ≠ 0)
    (hf : l.length ≤ f) :
    crange_locked_destruct h f w = lock_trace l ∧
    releases_of (crange_locked_destruct h f w) = l := by
  have hd : crange_locked_destruct h f w = release_loop h f w.prev_ w.succ_ := by
    rw [crange_locked_destruct, hm]
    simp
  rw [hd, release_loop_chain h hch h0 f hf, releases_of_lock_trace]
  exact ⟨rfl, rfl⟩

theorem c2_destructor_release_order_witness :
    crange_locked_destruct demo_heap 3 demo_window = lock_trace [2, 4, 6] ∧
    releases_of (crange_locked_destruct demo_heap 3 demo_window) = [2, 4, 6] :=
  c2_destructor_release_order demo_heap demo_window [2, 4, 6] 3 rfl
    (Chain.cons (by decide) (by decide)
      (Chain.cons (by decide) (by decide)
        (Chain.cons (by decide) (by decide) (Chain.nil 8))))
    (by decide) (by decide)

/-- C9: each per-node lock in a locked window is released exactly once:
move-construction sets the source handle's `moved_` flag, a moved-from
handle's destructor releases no locks, and only the final non-moved owner
runs the release loop, so across both destructors every window lock is
released exactly once. -/
theorem c9_release_exactly_once (h : Heap) (x : crange_locked)
    (l : List Nat) (f : Nat)
    (_hm : x.moved_ = false)
    (hch : Chain h x.prev_ l x.succ_)
    (h0 : ∀ a ∈ l, a ≠ 0)
    (hf : l.length ≤ f) :
    (crange_locked_move x).2.moved_ = true ∧
    (crange_locked_move x).1.moved_ = false ∧
    crange_locked_destruct h f (crange_locked_move x).2 = [] ∧
    releases_of (crange_locked_destruct h f (crange_locked_move x).1) = l ∧
    ∀ a ∈ l,
      (releases_of (crange_locked_destruct h f (crange_locked_move x).2) ++
        releases_of (crange_locked_destruct h f (crange_locked_move x).1)).count
        a = 1 := by
  have hmoved : crange_locked_destruct h f (crange_locked_move x).2 = [] := by
    rw [crange_locked_destruct]
    simp [crange_locked_move]
  have hfresh :
      releases_of (crange_locked_destruct h f (crange_locked_move x).1) = l := by
    have hd : crange_locked_destruct h f (crange_locked_move x).1 =
        release_loop h f x.prev_ x.succ_ := by
      rw [crange_locked_destruct]
      simp [crange_locked_move]
    rw [hd, release_loop_chain h hch h0 f hf, releases_of_lock_trace]
  refine ⟨rfl, rfl, hmoved, hfresh, ?_⟩
  intro a ha
  rw [hmoved, hfresh]
  simp only [releases_of, List.filterMap_nil, List.nil_append]
  exact List.count_eq_one_of_mem (chain_nodup h hch) ha

theorem c9_release_exactly_once_witness :
    crange_locked_destruct demo_heap 3 (crange_locked_move demo_window).2 = [] ∧
    releases_of
      (crange_locked_destruct demo_heap 3 (crange_locked_move demo_window).1) =
      [2, 4, 6] :=
  ⟨(c9_release_exactly_once demo_heap demo_window [2, 4, 6] 3 rfl
      (Chain.cons (by decide) (by decide)
        (Chain.cons (by decide) (by decide)
          (Chain.cons (by decide) (by decide) (Chain.nil 8))))
      (by decide) (by decide)).2.2.1,
   (c9_release_exactly_once demo_heap demo_window [2, 4, 6] 3 rfl
      (Chain.cons (by decide) (by decide)
        (Chain.cons (by decide) (by decide)
          (Chain.cons (by decide) (by decide) (Chain.nil 8))))
      (by decide) (by decide)).2.2.2.1⟩

/-- Embeds `class uwq` as far as `uwq_trywork` observes it: the results of
`uwq->haswork()` and `uwq->tryworker()` on the victim's work queue. -/
structure uwq_obj where
  haswork : Bool
  tryworkerRet : Bool
deriving DecidableEq

/-- Embeds `struct proc` as far as `uwq_trywork` observes it: its `uwq`
pointer, which may be null. -/
structure proc_obj where
  uwq : Option uwq_obj
deriving DecidableEq

/-- Embeds `struct cpu` as far as `uwq_trywork` observes it: its current
`proc` pointer, which may be null. -/
structure cpu_obj where
  proc : Option proc_obj
deriving DecidableEq

/-- Observable events of one `uwq_trywork` invocation.  `enterEpoch` and
`leaveEpoch` would be emitted by the constructor and destructor of a
`scoped_gc_epoch` object; the remaining events record the reads of
`c->proc` and `p->uwq` and the calls `uwq->haswork()` and
`uwq->tryworker()`. -/
inductive UwqEvent where
  | enterEpoch
  | leaveEpoch
  | readProc (j : Nat)
  | readUwq (j : Nat)
  | callHaswork (j : Nat)
  | callTryworker (j : Nat)
deriving DecidableEq

/-- Embeds the loop of `uwq_trywork` (src/kernel/uwq.cc lines 27-50).  For
each `i` the victim is `j = (i+k) % NCPU`; the calling CPU is skipped.  The
statement `scoped_gc_epoch xgc();` at line 35 is, by C++ grammar, the
declaration of a function `xgc` returning `scoped_gc_epoch` (the "most
vexing parse"), not the construction of a guard object — so the loop body
constructs and destroys no epoch guard, and no `enterEpoch`/`leaveEpoch`
event is emitted.  If the victim's `proc` or its `uwq` is null the loop
continues; if `uwq->haswork()` is false it continues; otherwise it calls
`uwq->tryworker()` and then either returns true or breaks out of the loop
(returning false), so the result is exactly `tryworker`'s result. -/
def uwq_trywork_go (cpus : Nat → cpu_obj) (ncpu myid k : Nat) :
    Nat → Nat → Bool × List UwqEvent
  | 0, _ => (false, [])
  | rem + 1, i =>
    if (i + k) % ncpu = myid then uwq_trywork_go cpus ncpu myid k rem (i + 1)
    else
      match (cpus ((i + k) % ncpu)).proc with
      | none =>
        let r := uwq_trywork_go cpus ncpu myid k rem (i + 1)
        (r.1, UwqEvent.readProc ((i + k) % ncpu) :: r.2)
      | some p =>
        match p.uwq with
        | none =>
          let r := uwq_trywork_go cpus ncpu myid k rem (i + 1)
          (r.1, UwqEvent.readProc ((i + k) % ncpu) ::
                UwqEvent.readUwq ((i + k) % ncpu) :: r.2)
        | some u =>
          if u.haswork then
            (u.tryworkerRet,
             [UwqEvent.readProc ((i + k) % ncpu),
              UwqEvent.readUwq ((i + k) % ncpu),
              UwqEvent.callHaswork ((i + k) % ncpu),
              UwqEvent.callTryworker ((i + k) % ncpu)])
          else
            let r := uwq_trywork_go cpus ncpu myid k rem (i + 1)
            (r.1, UwqEvent.readProc ((i + k) % ncpu) ::
                  UwqEvent.readUwq ((i + k) % ncpu) ::
                  UwqEvent.callHaswork ((i + k) % ncpu) :: r.2)

/-- Embeds `uwq_trywork` (uwq.cc lines 18-53): the loop runs for
`i = 0 .. NCPU-1`; falling out of the loop returns false.  The result is
paired with the emitted event trace. -/
def uwq_trywork (cpus : Nat → cpu_obj) (ncpu myid k : Nat) :
    Bool × List UwqEvent :=
  uwq_trywork_go cpus ncpu myid k ncpu 0

/-- The CPUs on which `uwq->tryworker()` was called, in call order. -/
def tryworker_calls : List UwqEvent → List Nat
  | [] => []
  | UwqEvent.callTryworker j :: evs => j :: tryworker_calls evs
  | _ :: evs => tryworker_calls evs

/-- The CPUs on which `uwq->haswork()` was consulted, in call order. -/
def haswork_probes : List UwqEvent → List Nat
  | [] => []
  | UwqEvent.callHaswork j :: evs => j :: haswork_probes evs
  | _ :: evs => haswork_probes evs

/-- A guard is live before step `n` of a trace when strictly more epoch
guards have been constructed than destroyed among the first `n` events. -/
def guard_live_at (evs : List UwqEvent) (n : Nat) : Bool :=
  decide ((evs.take n).count UwqEvent.leaveEpoch <
          (evs.take n).count UwqEvent.enterEpoch)

theorem guard_live_false (evs : List UwqEvent)
    (h : evs.count UwqEvent.enterEpoch = 0) (n : Nat) :
    guard_live_at evs n = false := by
  have hle := (List.take_sublist n evs).count_le UwqEvent.enterEpoch
  rw [guard_live_at, decide_eq_false_iff_not]
  omega

/-- A concrete two-CPU configuration: the caller is CPU 0; CPU 1's current
proc has a uwq that reports work and whose `tryworker()` succeeds. -/
def c1_cpus : Nat → cpu_obj := fun j =>
  if j = 1 then ⟨some ⟨some ⟨true, true⟩⟩⟩ else ⟨none⟩

/-- The event trace of `uwq_trywork` on `c1_cpus` with `NCPU = 2`,
`mycpuid() = 0` and `rdtsc() = 0`. -/
def c1_trace : List UwqEvent := (uwq_trywork c1_cpus 2 0 0).2

/-- C1: the claim requires a `scoped_gc_epoch` guard to be live from the
read of the victim's proc pointer through the `haswork`/`tryworker` calls;
the code violates it.  `scoped_gc_epoch xgc();` (uwq.cc line 35) is a
function declaration (the C++ "most vexing parse"), not an object
definition, so no guard is ever constructed: on the concrete failing input
the trace reads `c->proc` and calls `tryworker` while the number of
constructed epoch guards is zero, and no guard is live at any point of the
trace. -/
theorem c1_read_proc_without_guard :
    UwqEvent.readProc 1 ∈ c1_trace ∧
    UwqEvent.callTryworker 1 ∈ c1_trace ∧
    c1_trace.count UwqEvent.enterEpoch = 0 ∧
    ∀ n, guard_live_at c1_trace n = false :=
  ⟨by decide, by decide, by decide, guard_live_false c1_trace (by decide)⟩

/-- The victim order probed by `uwq_trywork`'s loop: `(i + k) % NCPU` for
`i = 0 .. NCPU-1` (uwq.cc line 28). -/
def probe_seq (ncpu k : Nat) : List Nat :=
  (List.range ncpu).map fun i => (i + k) % ncpu

/-- CPU `j` makes `uwq_trywork` call `tryworker` exactly when `j` is not
the calling CPU, its current proc is non-null, that proc's uwq is non-null,
and `haswork()` reports work. -/
def eligible_cpu (cpus : Nat → cpu_obj) (myid j : Nat) : Bool :=
  decide (j ≠ myid) &&
    match (cpus j).proc with
    | none => false
    | some p =>
      match p.uwq with
      | none => false
      | some u => u.haswork

/-- The result `tryworker()` would return on CPU `j`'s uwq (false when the
proc or uwq is null and the call cannot happen). -/
def cpu_tryworker_ret (cpus : Nat → cpu_obj) (j : Nat) : Bool :=
  match (cpus j).proc with
  | none => false
  | some p =>
    match p.uwq with
    | none => false
    | some u => u.tryworkerRet

theorem uwq_trywork_go_spec (cpus : Nat → cpu_obj) (ncpu myid k : Nat) :
    ∀ rem i,
      tryworker_calls (uwq_trywork_go cpus ncpu myid k rem i).2 =
        (((List.range rem).map fun t => (t + i + k) % ncpu).filter
          (eligible_cpu cpus myid)).head?.toList ∧
      (∀ j, tryworker_calls (uwq_trywork_go cpus ncpu myid k rem i).2 = [j] →
        (uwq_trywork_go cpus ncpu myid k rem i).1 = cpu_tryworker_ret cpus j ∧
        ∃ pre, haswork_probes (uwq_trywork_go cpus ncpu myid k rem i).2 =
          pre ++ [j]) ∧
      (tryworker_calls (uwq_trywork_go cpus ncpu myid k rem i).2 = [] →
        (uwq_trywork_go cpus ncpu myid k rem i).1 = false) := by
  intro rem
  induction rem with
  | zero =>
    intro i
    refine ⟨rfl, ?_, fun _ => rfl⟩
    intro j hj
    simp [uwq_trywork_go, tryworker_calls] at hj
  | succ rem ih =>
    intro i
    have hrange : ((List.range (rem + 1)).map fun t => (t + i + k) % ncpu) =
        ((i + k) % ncpu) ::
          ((List.range rem).map fun t => (t + (i + 1) + k) % ncpu) := by
      rw [List.range_succ_eq_map, List.map_cons, List.map_map]
      refine congrArg₂ List.cons (by simp) ?_
      refine List.map_congr_left ?_
      intro t _
      show (t + 1 + i + k) % ncpu = (t + (i + 1) + k) % ncpu
      congr 1
      omega
    by_cases hj : (i + k) % ncpu = myid
    · have heligible : eligible_cpu cpus myid ((i + k) % ncpu) = false := by
        simp [eligible_cpu, hj]
      simp only [uwq_trywork_go, if_pos hj, hrange, List.filter_cons, heligible,
        Bool.false_eq_true, if_false]
      exact ih (i + 1)
    · rcases hp : (cpus ((i + k) % ncpu)).proc with _ | p
      · have heligible : eligible_cpu cpus myid ((i + k) % ncpu) = false := by
          simp [eligible_cpu, hp]
        simp only [uwq_trywork_go, if_neg hj, hp, hrange, List.filter_cons,
          heligible, Bool.false_eq_true, if_false, tryworker_calls,
          haswork_probes]
        exact ih (i + 1)
      · rcases hu : p.uwq with _ | u
        · have heligible : eligible_cpu cpus myid ((i + k) % ncpu) = false := by
            simp [eligible_cpu, hp, hu]
          simp only [uwq_trywork_go, if_neg hj, hp, hu, hrange,
            List.filter_cons, heligible, Bool.false_eq_true, if_false,
            tryworker_calls, haswork_probes]
          exact ih (i + 1)
        · by_cases hw : u.haswork
          · have heligible :
                eligible_cpu cpus myid ((i + k) % ncpu) = true := by
              simp [eligible_cpu, hj, hp, hu, hw]
            simp only [uwq_trywork_go, if_neg hj, hp, hu, hw, if_true,
              hrange, List.filter_cons, heligible, if_pos, tryworker_calls,
              haswork_probes, List.head?_cons, Option.toList_some]
            refine ⟨by simp, ?_, by simp⟩
            intro j hjj
            have hjeq : j = (i + k) % ncpu := by
              cases hjj
              rfl
            subst hjeq
            refine ⟨?_, ⟨[], rfl⟩⟩
            simp [cpu_tryworker_ret, hp, hu]
          · have heligible :
                eligible_cpu cpus myid ((i + k) % ncpu) = false := by
              simp [eligible_cpu, hp, hu, hw]
            simp only [uwq_trywork_go, if_neg hj, hp, hu, hw,
              Bool.false_eq_true, if_false, hrange, List.filter_cons,
              heligible, tryworker_calls, haswork_probes]
            obtain ⟨ih1, ih2, ih3⟩ := ih (i + 1)
            refine ⟨ih1, ?_, ih3⟩
            intro j hjj
            obtain ⟨hret, pre, hpre⟩ := ih2 j hjj
            exact ⟨hret, ⟨(i + k) % ncpu :: pre, by rw [hpre]; rfl⟩⟩

/-- C10: `uwq_trywork` never selects the calling CPU as a victim and calls
`tryworker` on at most one victim per invocation: the first CPU in its
probe order, other than the caller, whose current proc has a uwq reporting
work.  Its result is that single `tryworker` call's result — in particular
when that call returns false, `uwq_trywork` returns false and probes no
further CPU (the last `haswork` probe is the victim) — and when no
`tryworker` call happens it returns false. -/
theorem c10_single_victim (cpus : Nat → cpu_obj) (ncpu myid k : Nat) :
    (∀ j ∈ tryworker_calls (uwq_trywork cpus ncpu myid k).2, j ≠ myid) ∧
    tryworker_calls (uwq_trywork cpus ncpu myid k).2 =
      ((probe_seq ncpu k).filter (eligible_cpu cpus myid)).head?.toList ∧
    (tryworker_calls (uwq_trywork cpus ncpu myid k).2).length ≤ 1 ∧
    (∀ j, tryworker_calls (uwq_trywork cpus ncpu myid k).2 = [j] →
      (uwq_trywork cpus ncpu myid k).1 = cpu_tryworker_ret cpus j ∧
      ∃ pre, haswork_probes (uwq_trywork cpus ncpu myid k).2 = pre ++ [j]) ∧
    (tryworker_calls (uwq_trywork cpus ncpu myid k).2 = [] →
      (uwq_trywork cpus ncpu myid k).1 = false) := by
  obtain ⟨h1, h2, h3⟩ := uwq_trywork_go_spec cpus ncpu myid k ncpu 0
  have hps : ((List.range ncpu).map fun t => (t + 0 + k) % ncpu) =
      probe_seq ncpu k := by
    rw [probe_seq]
    refine List.map_congr_left ?_
    intro t _
    show (t + 0 + k) % ncpu = (t + k) % ncpu
    congr 1
  rw [hps] at h1
  simp only [uwq_trywork]
  refine ⟨?_, h1, ?_, h2, h3⟩
  · intro j hj
    rcases hl : (probe_seq ncpu k).filter (eligible_cpu cpus myid)
      with _ | ⟨y, t⟩
    · rw [hl] at h1
      rw [h1] at hj
      simp at hj
    · rw [hl] at h1
      rw [h1] at hj
      simp at hj
      subst hj
      have hy : eligible_cpu cpus myid j = true := by
        have hmem : j ∈ (probe_seq ncpu k).filter (eligible_cpu cpus myid) := by
          rw [hl]
          exact List.mem_cons_self j t
        exact List.of_mem_filter hmem
      simp only [eligible_cpu, Bool.and_eq_true, decide_eq_true_eq] at hy
      exact hy.1
  · rw [h1]
    rcases ((probe_seq ncpu k).filter (eligible_cpu cpus myid)).head?
      with _ | x <;> simp

/-- A concrete two-CPU configuration: the caller is CPU 0; CPU 1's current
proc has a uwq that reports work but whose `tryworker()` fails. -/
def c10_cpus : Nat → cpu_obj := fun j =>
  if j = 1 then ⟨some ⟨some ⟨true, false⟩⟩⟩ else ⟨none⟩

theorem c10_single_victim_witness :
    ((1 : Nat) ≠ 0) ∧
    (uwq_trywork c10_cpus 2 0 0).1 = false ∧
    tryworker_calls (uwq_trywork c10_cpus 2 0 0).2 = [1] := by
  refine ⟨(c10_single_victim c10_cpus 2 0 0).1 1 (by decide), ?_, by decide⟩
  have h := (c10_single_victim c10_cpus 2 0 0).2.2.2.1 1 (by decide)
  rw [h.1]
  decide

/-- The value a C++ `return` statement yields in a function whose return
type is `bool`: either an explicit boolean, or `nullptr` (uwq.cc line 224),
which converts implicitly to `false`. -/
inductive cxx_bool_ret where
  | ofBool (b : Bool)
  | ofNullptr
deriving DecidableEq

/-- The boolean the caller observes: `nullptr` converts to `false`. -/
def cxx_bool_ret.toBool : cxx_bool_ret → Bool
  | cxx_bool_ret.ofBool b => b
  | cxx_bool_ret.ofNullptr => false

/-- What one `uwq::tryworker` invocation returned and did: `ret` is the
returned value as written in the source, `woke` the index of the idle
worker it woke (if any), `spawned` the slot it filled with a freshly
allocated worker (if any). -/
structure tryworker_result where
  ret : cxx_bool_ret
  woke : Option Nat
  spawned : Option Nat
deriving DecidableEq

/-- Embeds the worker-array scan of `uwq::tryworker` (uwq.cc lines
179-202).  Each slot of `worker_` is `none` (null) or `some running_`.
The scan remembers the first null slot (`if (slot == -1) slot = i;`),
skips running workers, and stops at the first non-running worker, which
the source wakes and returns `true` for.  Result: the woken worker's index
(if found) paired with the recorded free slot. -/
def scan_workers : List (Option Bool) → Nat → Option Nat → Option Nat × Option Nat
  | [], _, slot => (none, slot)
  | none :: ws, i, slot =>
    scan_workers ws (i + 1) (if slot = none then some i else slot)
  | some true :: ws, i, slot => scan_workers ws (i + 1) slot
  | some false :: _ws, i, slot => (some i, slot)

/-- Embeds `uwq::tryworker` (uwq.cc lines 170-225).  `valid` is the result
of `valid()`; `workers` is the `worker_` array (`none` = null slot,
`some b` = worker with `running_ = b`); `allocOk` tells whether
`allocworker()` returns a proc.  Paths: `if (!valid()) return false;`;
waking a non-running worker returns `true`; a free slot plus a successful
allocation returns `true`; every remaining path falls through to
`return nullptr;` (line 224). -/
def uwq_tryworker (valid : Bool) (workers : List (Option Bool))
    (allocOk : Bool) : tryworker_result :=
  if valid = false then ⟨cxx_bool_ret.ofBool false, none, none⟩
  else
    match scan_workers workers 0 none with
    | (some i, _) => ⟨cxx_bool_ret.ofBool true, some i, none⟩
    | (none, some s) =>
      if allocOk then ⟨cxx_bool_ret.ofBool true, none, some s⟩
      else ⟨cxx_bool_ret.ofNullptr, none, none⟩
    | (none, none) => ⟨cxx_bool_ret.ofNullptr, none, none⟩

theorem scan_workers_spec :
    ∀ (ws : List (Option Bool)) (i : Nat) (slot : Option Nat),
      ((scan_workers ws i slot).1.isSome =
        ws.any fun w => w == some false) ∧
      ((scan_workers ws i slot).1 = none →
        (scan_workers ws i slot).2.isSome =
          (slot.isSome || ws.any fun w => w.isNone)) := by
  intro ws
  induction ws with
  | nil =>
    intro i slot
    exact ⟨rfl, fun _ => by simp [scan_workers]⟩
  | cons w ws ih =>
    intro i slot
    match w with
    | none =>
      obtain ⟨ih1, ih2⟩ := ih (i + 1) (if slot = none then some i else slot)
      refine ⟨by simpa [scan_workers] using ih1, ?_⟩
      intro hnone
      have h2 := ih2 (by simpa [scan_workers] using hnone)
      have hsl : (if slot = none then some i else slot).isSome = true := by
        cases slot <;> simp
      rw [show (scan_workers (none :: ws) i slot).2 =
            (scan_workers ws (i + 1)
              (if slot = none then some i else slot)).2 from rfl, h2, hsl]
      simp
    | some true =>
      obtain ⟨ih1, ih2⟩ := ih (i + 1) slot
      refine ⟨by simpa [scan_workers] using ih1, ?_⟩
      intro hnone
      have h2 := ih2 (by simpa [scan_workers] using hnone)
      rw [show (scan_workers (some true :: ws) i slot).2 =
            (scan_workers ws (i + 1) slot).2 from rfl, h2]
      simp
    | some false =>
      refine ⟨by simp [scan_workers], ?_⟩
      intro hnone
      simp [scan_workers] at hnone

/-- C8: `uwq::tryworker`'s contract is strictly boolean: it returns true
exactly when it wakes an existing idle worker or allocates and enqueues a
new worker, and on every other path it returns false; in particular the
`return nullptr` on its final failure path is equivalent to returning
false.  The third conjunct pins the observed boolean down to the inputs:
true iff `valid()` holds and there is an idle worker, or there is no idle
worker but a null slot exists and allocation succeeds. -/
theorem c8_tryworker_strictly_boolean (valid : Bool)
    (workers : List (Option Bool)) (allocOk : Bool) :
    (cxx_bool_ret.toBool (uwq_tryworker valid workers allocOk).ret = true ↔
      ((uwq_tryworker valid workers allocOk).woke.isSome ∨
       (uwq_tryworker valid workers allocOk).spawned.isSome)) ∧
    ((uwq_tryworker valid workers allocOk).ret = cxx_bool_ret.ofNullptr →
      cxx_bool_ret.toBool (uwq_tryworker valid workers allocOk).ret = false) ∧
    cxx_bool_ret.toBool (uwq_tryworker valid workers allocOk).ret =
      (valid &&
        ((workers.any fun w => w == some false) ||
         ((workers.any fun w => w.isNone) && allocOk))) := by
  cases valid with
  | false => simp [uwq_tryworker, cxx_bool_ret.toBool]
  | true =>
    rcases hscan : scan_workers workers 0 none with ⟨o1, o2⟩
    obtain ⟨sp1, sp2⟩ := scan_workers_spec workers 0 none
    rw [hscan] at sp1 sp2
    cases o1 with
    | some i =>
      have hany : (workers.any fun w => w == some false) = true := by
        simpa using sp1.symm
      have hres : uwq_tryworker true workers allocOk =
          ⟨cxx_bool_ret.ofBool true, some i, none⟩ := by
        rw [uwq_tryworker]
        simp [hscan]
      rw [hres]
      simp [cxx_bool_ret.toBool, hany]
    | none =>
      have hany : (workers.any fun w => w == some false) = false := by
        simpa using sp1.symm
      cases o2 with
      | some s =>
        have hanyN : (workers.any fun w => w.isNone) = true := by
          simpa using (sp2 rfl).symm
        cases allocOk with
        | false =>
          have hres : uwq_tryworker true workers false =
              ⟨cxx_bool_ret.ofNullptr, none, none⟩ := by
            rw [uwq_tryworker]
            simp [hscan]
          rw [hres]
          simp [cxx_bool_ret.toBool, hany, hanyN]
        | true =>
          have hres : uwq_tryworker true workers true =
              ⟨cxx_bool_ret.ofBool true, none, some s⟩ := by
            rw [uwq_tryworker]
            simp [hscan]
          rw [hres]
          simp [cxx_bool_ret.toBool, hany, hanyN]
      | none =>
        have hanyN : (workers.any fun w => w.isNone) = false := by
          simpa using (sp2 rfl).symm
        have hres : uwq_tryworker true workers allocOk =
            ⟨cxx_bool_ret.ofNullptr, none, none⟩ := by
          rw [uwq_tryworker]
          simp [hscan]
        rw [hres]
        simp [cxx_bool_ret.toBool, hany, hanyN]

theorem c8_tryworker_strictly_boolean_witness :
    ((uwq_tryworker true [some true, none] false).ret =
      cxx_bool_ret.ofNullptr) ∧
    cxx_bool_ret.toBool (uwq_tryworker true [some true, none] false).ret =
      false :=
  ⟨by decide,
   (c8_tryworker_strictly_boolean true [some true, none] false).2.1
     (by decide)⟩
